import Mathlib

/-!
Shallow embedding of brainstorm/construction.py: the graph-construction
layer (ConstructionLayer), its connect operation (__rshift__), the
incremental cycle check (traverse_sink_layer_tree / assert_no_cycles),
size inference (the size property), connected-component collection
(collect_connected_layers), and the injector binding operations
(ConstructionInjector.__rlshift__ and __rrshift__).

Layers and injectors are identified by natural-number ids.  A graph state
holds the mutable fields of every layer and injector; Python attribute
mutation becomes functional state update.  The Python generator-based
traversal is embedded as a fuel-indexed recursion that threads the
per-layer traversing flags and returns the flag state at normal or
exceptional exit, matching exactly where the Python exception would leave
the in-place flags (a generator abandoned by an exception does not run
the code after its inner loop, so flags set on the current path stay
set).  The UniquelyNamed base class (naming scope) lives in a separate
file of the repository that is not part of the analysed source; no claim
below depends on name assignment, so names and scope merging are not
modelled, and the name argument of the constructors is kept only where
the constructor itself inspects it.
-/

namespace Brainstorm

/-- Pointwise update of a Nat-indexed state function. -/
def updFn {α : Type} (f : Nat → α) (i : Nat) (a : α) : Nat → α :=
  fun j => if j = i then a else f j

@[simp] theorem updFn_same {α : Type} (f : Nat → α) (i : Nat) (a : α) :
    updFn f i a i = a := by
  simp [updFn]

theorem updFn_ne {α : Type} (f : Nat → α) {i j : Nat} (a : α) (h : j ≠ i) :
    updFn f i a j = f j := by
  simp [updFn, h]

/-- Character class of the leading character of PYTHON_IDENTIFIER. -/
def isIdentStart (c : Char) : Bool :=
  c = '_' || ('a' ≤ c && c ≤ 'z') || ('A' ≤ c && c ≤ 'Z')

/-- Character class of the continuation characters of PYTHON_IDENTIFIER. -/
def isIdentCont (c : Char) : Bool :=
  isIdentStart c || ('0' ≤ c && c ≤ '9')

/-- PYTHON_IDENTIFIER.match from construction.py: one leading identifier
character followed by identifier characters, anchored at both ends, where
the Python end anchor also matches just before a single trailing newline
character. -/
def pyIdentifierMatch (s : String) : Bool :=
  let cs := s.data
  let core := if cs.getLast? = some '\n' then cs.dropLast else cs
  match core with
  | [] => false
  | c :: rest => isIdentStart c && rest.all isIdentCont

/-- Mutable per-layer state of a ConstructionLayer.  The field size_
models the Python attribute _size; layer name and kwargs are handled by
the external UniquelyNamed collaborator respectively passed through
opaquely, and are not needed by any claim. -/
structure LayerData where
  layer_type : String := ""
  size_ : Option Nat := none
  source_layers : List Nat := []
  sink_layers : List Nat := []
  traversing : Bool := false
  injectors : List Nat := []
  deriving DecidableEq

/-- Mutable per-injector state of a ConstructionInjector. -/
structure InjectorData where
  injector_type : String := ""
  target_from : Option Nat := none
  output_from : Option Nat := none
  deriving DecidableEq

/-- A whole construction-time graph state: a finite list of layer ids in
play (dom) plus the state of every layer and injector. -/
structure GState where
  dom : List Nat
  layers : Nat → LayerData
  injs : Nat → InjectorData

/-- Update one layer record in a graph state. -/
def GState.updLayer (s : GState) (i : Nat) (f : LayerData → LayerData) : GState :=
  { s with layers := updFn s.layers i (f (s.layers i)) }

/-- Update one injector record in a graph state. -/
def GState.updInj (s : GState) (i : Nat) (f : InjectorData → InjectorData) : GState :=
  { s with injs := updFn s.injs i (f (s.injs i)) }

/-- The traversing flag assignment of a state. -/
def GState.flags (s : GState) : Nat → Bool :=
  fun i => (s.layers i).traversing

/-- The sink adjacency map of a state. -/
def sinksOf (s : GState) : Nat → List Nat :=
  fun i => (s.layers i).sink_layers

/-- Errors raised by the asserts in ConstructionLayer.__init__. -/
inductive BuildError where
  | invalidLayerType (t : String)
  | invalidLayerName (n : String)
  deriving DecidableEq

/-- InvalidArchitectureError payloads raised by the modelled operations. -/
inductive ArchError where
  | circleAt (layer : Nat)
  | alreadyConnectedOutput (layer : Nat)
  | alreadyReceivingTargets (layer : Nat)
  deriving DecidableEq

/-- ConstructionLayer.__init__: asserts that layer_type and an explicitly
given name match PYTHON_IDENTIFIER (in this order, before the naming
scope is involved), then initialises the mutable fields. -/
def layerInit (layer_type : String) (size : Option Nat) (name : Option String) :
    Except BuildError LayerData :=
  if !(pyIdentifierMatch layer_type) then .error (.invalidLayerType layer_type)
  else
    match name with
    | some n =>
        if !(pyIdentifierMatch n) then .error (.invalidLayerName n)
        else .ok { layer_type := layer_type, size_ := size }
    | none => .ok { layer_type := layer_type, size_ := size }

/-- ConstructionInjector.__init__: performs no identifier validation at
all; it only stores injector_type and target_from and clears output_from.
The name argument is merely forwarded to the naming scope. -/
def injectorInit (injector_type : String) (target_from : Option Nat)
    (_name : Option String) : InjectorData :=
  { injector_type := injector_type, target_from := target_from, output_from := none }

/-- Result of a binding operation: the new state and the returned object,
or the unchanged state plus the raised error. -/
inductive BindResult where
  | ok (s : GState) (ret : Nat)
  | err (s : GState) (e : ArchError)

def BindResult.isOk : BindResult → Bool
  | .ok _ _ => true
  | .err _ _ => false

/-- The injectors list of layer i in the state a binding left behind. -/
def BindResult.injectorsOf (i : Nat) : BindResult → List Nat
  | .ok s _ => (s.layers i).injectors
  | .err s _ => (s.layers i).injectors

/-- ConstructionInjector.__rlshift__ (layer << injector): raises unless
output_from is unset or already the very layer; otherwise records the
layer in output_from and appends the injector to the layer's injectors
list, returning the injector. -/
def bind_output (s : GState) (other inj : Nat) : BindResult :=
  let mutated := (s.updInj inj (fun d => { d with output_from := some other })).updLayer
      other (fun d => { d with injectors := d.injectors ++ [inj] })
  match (s.injs inj).output_from with
  | none => .ok mutated inj
  | some l => if l = other then .ok mutated inj
              else .err s (ArchError.alreadyConnectedOutput l)

/-- ConstructionInjector.__rrshift__ (layer >> injector): raises unless
target_from is unset or already the very layer; otherwise records the
layer in target_from and returns the injector (it does not touch the
layer's injectors list). -/
def bind_target (s : GState) (other inj : Nat) : BindResult :=
  let mutated := s.updInj inj (fun d => { d with target_from := some other })
  match (s.injs inj).target_from with
  | none => .ok mutated inj
  | some l => if l = other then .ok mutated inj
              else .err s (ArchError.alreadyReceivingTargets l)

/-- Result of the size property: a number, the InvalidArchitectureError
for a size that cannot be determined, or exhaustion of the recursion
fuel (the Python recursion has no fuel; adequate fuel never exhausts). -/
inductive SizeResult where
  | ok (n : Nat)
  | indeterminate (layer : Nat)
  | outOfFuel
  deriving DecidableEq

/-- Left-to-right sum of the sizes of a list of layers, propagating the
first failure, as the Python sum over a generator does. -/
def sumSizes (szF : Nat → SizeResult) : List Nat → SizeResult
  | [] => .ok 0
  | j :: js =>
    match szF j with
    | .ok a =>
        match sumSizes szF js with
        | .ok b => .ok (a + b)
        | r => r
    | r => r

/-- ConstructionLayer.size: the explicit _size when set, otherwise the
sum of the sizes of the source layers, otherwise the could-not-determine
error. -/
def sizeFuel (s : GState) : Nat → Nat → SizeResult
  | 0, _ => .outOfFuel
  | fuel + 1, i =>
    match (s.layers i).size_ with
    | some n => .ok n
    | none =>
        if (s.layers i).source_layers = [] then .indeterminate i
        else sumSizes (sizeFuel s fuel) (s.layers i).source_layers

theorem sumSizes_ok (szF : Nat → SizeResult) (v : Nat → Nat) :
    ∀ l : List Nat, (∀ j ∈ l, szF j = .ok (v j)) →
      sumSizes szF l = .ok (l.map v).sum := by
  intro l
  induction l with
  | nil => intro _; rfl
  | cons j js ih =>
      intro h
      have hj : szF j = .ok (v j) := h j (List.mem_cons_self j js)
      have hjs : sumSizes szF js = .ok ((js.map v).sum) :=
        ih (fun t ht => h t (List.mem_cons_of_mem j ht))
      simp [sumSizes, hj, hjs]

theorem InjectorData.set_output_self {d : InjectorData} {n : Nat}
    (h : d.output_from = some n) : { d with output_from := some n } = d := by
  cases d with
  | mk t tf o =>
      simp only [InjectorData.mk.injEq, and_true, true_and]
      simp at h
      exact h.symm

theorem InjectorData.set_target_self {d : InjectorData} {n : Nat}
    (h : d.target_from = some n) : { d with target_from := some n } = d := by
  cases d with
  | mk t tf o =>
      simp only [InjectorData.mk.injEq, and_true, true_and]
      simp at h
      exact h.symm

/-- C4 (amended): rebinding an injector to the node it is already bound
to does not raise; on the target side this is a complete no-op, but on
the output side the injector is appended to the node's injectors list a
second time, so the injectors list does change. -/
theorem C4_rebind_same_node (s : GState) (n inj : Nat) :
    ((s.injs inj).output_from = some n →
      ∃ s2, bind_output s n inj = .ok s2 inj
        ∧ (∀ j, s2.injs j = s.injs j)
        ∧ (s2.layers n).injectors = (s.layers n).injectors ++ [inj]
        ∧ ∀ m, m ≠ n → s2.layers m = s.layers m)
    ∧ ((s.injs inj).target_from = some n →
      ∃ s2, bind_target s n inj = .ok s2 inj
        ∧ (∀ j, s2.injs j = s.injs j)
        ∧ ∀ m, s2.layers m = s.layers m) := by
  constructor
  · intro h
    refine ⟨(s.updInj inj (fun d => { d with output_from := some n })).updLayer
        n (fun d => { d with injectors := d.injectors ++ [inj] }), ?_, ?_, ?_, ?_⟩
    · simp [bind_output, h]
    · intro j
      by_cases hj : j = inj
      · subst hj
        simp [GState.updLayer, GState.updInj, updFn, InjectorData.set_output_self h]
      · simp [GState.updLayer, GState.updInj, updFn, hj]
    · simp [GState.updLayer, GState.updInj, updFn]
    · intro m hm
      simp [GState.updLayer, GState.updInj, updFn, hm]
  · intro h
    refine ⟨s.updInj inj (fun d => { d with target_from := some n }), ?_, ?_, fun m => rfl⟩
    · simp [bind_target, h]
    · intro j
      by_cases hj : j = inj
      · subst hj
        simp [GState.updInj, updFn, InjectorData.set_target_self h]
      · simp [GState.updInj, updFn, hj]

/-- Concrete state for C4: injector 0 already output-bound and
target-bound to layer 0, which lists it once in injectors. -/
def c4w : GState :=
  { dom := [0]
  , layers := updFn (fun _ => {}) 0 { injectors := [0] }
  , injs := updFn (fun _ => {}) 0 { output_from := some 0, target_from := some 0 } }

theorem C4_witness : (bind_output c4w 0 0).isOk = true ∧
    (bind_target c4w 0 0).isOk = true := by
  obtain ⟨ho, ht⟩ := C4_rebind_same_node c4w 0 0
  obtain ⟨s2, h2, -, -, -⟩ := ho (by decide)
  obtain ⟨s3, h3, -, -⟩ := ht (by decide)
  rw [h2, h3]
  exact ⟨rfl, rfl⟩

/-- C4 counterexample: repeating bind_output with the same node succeeds
but is not a complete no-op — the node's injectors list changes from one
copy of the injector to two. -/
theorem C4_counterexample :
    (bind_output c4w 0 0).isOk = true
    ∧ (bind_output c4w 0 0).injectorsOf 0 = [0, 0]
    ∧ (c4w.layers 0).injectors = [0] := by
  decide

/-- C5: binding an injector side that is already bound to a different
node raises the conflict error naming the prior node and returns the
state unchanged. -/
theorem C5_rebind_conflict (s : GState) (n1 n2 inj : Nat) :
    ((s.injs inj).output_from = some n1 → n1 ≠ n2 →
      bind_output s n2 inj = .err s (.alreadyConnectedOutput n1))
    ∧ ((s.injs inj).target_from = some n1 → n1 ≠ n2 →
      bind_target s n2 inj = .err s (.alreadyReceivingTargets n1)) := by
  constructor
  · intro h hne
    simp [bind_output, h, hne]
  · intro h hne
    simp [bind_target, h, hne]

theorem C5_witness : bind_output c4w 1 0 = .err c4w (.alreadyConnectedOutput 0)
    ∧ bind_target c4w 1 0 = .err c4w (.alreadyReceivingTargets 0) :=
  ⟨(C5_rebind_conflict c4w 0 1 0).1 (by decide) (by decide),
   (C5_rebind_conflict c4w 0 1 0).2 (by decide) (by decide)⟩

/-- C6: size returns the explicit size when set, regardless of sources;
otherwise the sum of the sizes of the direct sources when there are any;
otherwise the size-indeterminate error. -/
theorem C6_size (s : GState) (f i : Nat) :
    (∀ n, (s.layers i).size_ = some n → sizeFuel s (f + 1) i = .ok n)
    ∧ (∀ v : Nat → Nat, (s.layers i).size_ = none →
        (s.layers i).source_layers ≠ [] →
        (∀ j ∈ (s.layers i).source_layers, sizeFuel s f j = .ok (v j)) →
        sizeFuel s (f + 1) i = .ok (((s.layers i).source_layers).map v).sum)
    ∧ ((s.layers i).size_ = none → (s.layers i).source_layers = [] →
        sizeFuel s (f + 1) i = .indeterminate i) := by
  refine ⟨?_, ?_, ?_⟩
  · intro n h
    simp [sizeFuel, h]
  · intro v h0 hne hall
    simp only [sizeFuel, h0, hne, if_neg hne]
    exact sumSizes_ok (sizeFuel s f) v _ hall
  · intro h0 hemp
    simp [sizeFuel, h0, hemp]

/-- Concrete state for C6: layer 0 has no explicit size and sources of
sizes 3, 4 and 5; layer 4 has explicit size 7 and the same sources;
layer 5 has neither size nor sources. -/
def sz6 : GState :=
  { dom := [0, 1, 2, 3, 4, 5]
  , layers := fun i =>
      if i = 0 then { source_layers := [1, 2, 3] }
      else if i = 1 then { size_ := some 3 }
      else if i = 2 then { size_ := some 4 }
      else if i = 3 then { size_ := some 5 }
      else if i = 4 then { size_ := some 7, source_layers := [1, 2, 3] }
      else {}
  , injs := fun _ => {} }

theorem C6_witness : sizeFuel sz6 2 0 = .ok 12 ∧ sizeFuel sz6 1 4 = .ok 7
    ∧ sizeFuel sz6 1 5 = .indeterminate 5 := by
  refine ⟨?_, ?_, ?_⟩
  · have := (C6_size sz6 1 0).2.1 (fun j => j + 2) rfl (by decide) (by decide)
    simpa using this
  · exact (C6_size sz6 0 4).1 7 rfl
  · exact (C6_size sz6 0 5).2.2 rfl rfl

/-- C7 (amended): ConstructionLayer construction validates layer_type
and an explicitly supplied name against identifier syntax and fails
immediately otherwise, so a successfully constructed layer has valid
identifiers; ConstructionInjector construction performs no identifier
validation at all and always succeeds. -/
theorem C7_identifier_validation :
    (∀ k sz nm, pyIdentifierMatch k = false →
      layerInit k sz nm = .error (.invalidLayerType k))
    ∧ (∀ k sz n, pyIdentifierMatch k = true → pyIdentifierMatch n = false →
      layerInit k sz (some n) = .error (.invalidLayerName n))
    ∧ (∀ k sz nm d, layerInit k sz nm = .ok d →
      pyIdentifierMatch k = true ∧ ∀ n, nm = some n → pyIdentifierMatch n = true)
    ∧ (∀ t tf nm, injectorInit t tf nm =
      { injector_type := t, target_from := tf, output_from := none }) := by
  refine ⟨?_, ?_, ?_, fun t tf nm => rfl⟩
  · intro k sz nm h
    simp [layerInit, h]
  · intro k sz n hk hn
    simp [layerInit, hk, hn]
  · intro k sz nm d h
    by_cases hk : pyIdentifierMatch k = true
    · refine ⟨hk, ?_⟩
      rintro n rfl
      by_cases hn : pyIdentifierMatch n = true
      · exact hn
      · rw [Bool.not_eq_true] at hn
        simp [layerInit, hk, hn] at h
    · rw [Bool.not_eq_true] at hk
      simp [layerInit, hk] at h

theorem C7_witness : layerInit "9bad" none none = .error (.invalidLayerType "9bad") :=
  C7_identifier_validation.1 "9bad" none none (by decide)

/-- C7 counterexample: an injector whose kind fails identifier syntax is
nevertheless constructed successfully (with a syntactically valid
explicit name, so the naming scope cannot be the one to reject it), so
injector construction does not fail on an invalid kind. -/
theorem C7_counterexample :
    pyIdentifierMatch "1bad" = false
    ∧ injectorInit "1bad" none (some "ok") =
        { injector_type := "1bad", target_from := none, output_from := none } :=
  ⟨by decide, rfl⟩

/-- Result of the generator-driven traversal: normal completion with the
flag state at exit and the list of layers in yield order, the
InvalidArchitectureError for a circle with the flag state at the moment
the exception escapes (the abandoned generators never reset their
flags), or fuel exhaustion (the embedding artifact; adequate fuel never
exhausts). -/
inductive TravResult where
  | ok (flags : Nat → Bool) (visited : List Nat)
  | circle (flags : Nat → Bool) (layer : Nat)
  | outOfFuel

/-- The inner for-loop of traverse_sink_layer_tree: run the traversal
over each sink in order, threading the flag state, propagating the first
exception. -/
def traverseList (travF : (Nat → Bool) → Nat → TravResult) :
    (Nat → Bool) → List Nat → TravResult
  | fl, [] => .ok fl []
  | fl, t :: ts =>
    match travF fl t with
    | .ok fl2 vis =>
        match traverseList travF fl2 ts with
        | .ok fl3 vis2 => .ok fl3 (vis ++ vis2)
        | .circle fl3 m => .circle fl3 m
        | .outOfFuel => .outOfFuel
    | .circle fl2 m => .circle fl2 m
    | .outOfFuel => .outOfFuel

/-- ConstructionLayer.traverse_sink_layer_tree, fully consumed as
assert_no_cycles does: raise the circle error if the entered layer is
already marked traversing, otherwise mark it, yield it, recurse into all
its sinks in order, and clear the mark on normal completion only. -/
def traverseFuel (sinks : Nat → List Nat) : Nat → (Nat → Bool) → Nat → TravResult
  | 0, _, _ => .outOfFuel
  | fuel + 1, fl, node =>
    if fl node then .circle fl node
    else
      match traverseList (traverseFuel sinks fuel) (updFn fl node true) (sinks node) with
      | .ok fl2 vis => .ok (updFn fl2 node false) (node :: vis)
      | .circle fl2 m => .circle fl2 m
      | .outOfFuel => .outOfFuel

/-- ConstructionLayer.assert_no_cycles: consume the whole traversal
starting at the given layer, with fuel that is always adequate for a
sink-closed state. -/
def assert_no_cycles (s : GState) (a : Nat) : TravResult :=
  traverseFuel (sinksOf s) (s.dom.length + 1) (GState.flags s) a

/-- Install the traversing flags returned by a traversal back into the
state. -/
def setTraversing (s : GState) (fl : Nat → Bool) : GState :=
  { s with layers := fun i => { s.layers i with traversing := fl i } }

/-- Steps (1) and (2) of __rshift__: append other to self's sink_layers
and self to other's source_layers. -/
def addEdge (s : GState) (a b : Nat) : GState :=
  (s.updLayer a (fun d => { d with sink_layers := d.sink_layers ++ [b] })).updLayer
    b (fun d => { d with source_layers := d.source_layers ++ [a] })

/-- Result of __rshift__: on success the new state and the returned sink
(enabling chaining), on a circle the error together with the state the
exception left behind.  merge_scopes touches only the external naming
scope and is not modelled. -/
inductive ConnectResult where
  | ok (s : GState) (ret : Nat)
  | err (s : GState) (e : ArchError)
  | outOfFuel

def ConnectResult.isOk : ConnectResult → Bool
  | .ok _ _ => true
  | _ => false

def ConnectResult.isErr : ConnectResult → Bool
  | .err _ _ => true
  | _ => false

/-- The traversing flag of layer i in the state a connect left behind. -/
def ConnectResult.flagOf (i : Nat) : ConnectResult → Bool
  | .ok s _ => (s.layers i).traversing
  | .err s _ => (s.layers i).traversing
  | .outOfFuel => false

/-- ConstructionLayer.__rshift__ (self >> other): append the edge on
both sides, then validate acyclicity from self; on success return other,
on failure surface the error, with the freshly appended edge left in
place either way. -/
def connect (s : GState) (a b : Nat) : ConnectResult :=
  let s1 := addEdge s a b
  match assert_no_cycles s1 a with
  | .ok fl _ => .ok (setTraversing s1 fl) b
  | .circle fl m => .err (setTraversing s1 fl) (ArchError.circleAt m)
  | .outOfFuel => .outOfFuel

/-- One sink edge of the adjacency map. -/
def StepF (sinks : Nat → List Nat) (i j : Nat) : Prop :=
  j ∈ sinks i

/-- One sink edge of a graph state. -/
def SinkStep (s : GState) (i j : Nat) : Prop :=
  j ∈ (s.layers i).sink_layers

/-- Every sink edge of a layer in dom stays in dom. -/
def SinksClosed (s : GState) : Prop :=
  ∀ i ∈ s.dom, ∀ j ∈ (s.layers i).sink_layers, j ∈ s.dom

/-- Every sink and source edge of a layer in dom stays in dom. -/
def EdgesClosed (s : GState) : Prop :=
  ∀ i ∈ s.dom, (∀ j ∈ (s.layers i).sink_layers, j ∈ s.dom)
    ∧ (∀ j ∈ (s.layers i).source_layers, j ∈ s.dom)

/-- The sources/sinks mutual-adjacency invariant on the layers in dom. -/
def MutualAdj (s : GState) : Prop :=
  ∀ x ∈ s.dom, ∀ y ∈ s.dom,
    (y ∈ (s.layers x).sink_layers ↔ x ∈ (s.layers y).source_layers)

/-- Number of layers of dom not currently marked traversing. -/
def unmarkedCount (dom : List Nat) (fl : Nat → Bool) : Nat :=
  (dom.filter (fun i => !(fl i))).length

theorem unmarkedCount_le (dom : List Nat) (fl : Nat → Bool) :
    unmarkedCount dom fl ≤ dom.length :=
  List.length_filter_le _ _

theorem unmarkedCount_congr (dom : List Nat) {fl fl2 : Nat → Bool}
    (h : ∀ i, fl2 i = fl i) : unmarkedCount dom fl2 = unmarkedCount dom fl := by
  unfold unmarkedCount
  induction dom with
  | nil => rfl
  | cons x xs ih =>
      simp only [List.filter_cons, h x]
      cases hx : !(fl x) <;> simp [hx, ih]

theorem filterLen_update_le (fl : Nat → Bool) (n : Nat) :
    ∀ xs : List Nat,
      (xs.filter (fun i => !(updFn fl n true i))).length
        ≤ (xs.filter (fun i => !(fl i))).length := by
  intro xs
  induction xs with
  | nil => simp
  | cons x xs ih =>
      simp only [List.filter_cons]
      by_cases hx : x = n
      · have h1 : (!(updFn fl n true x)) = false := by rw [hx, updFn_same]; rfl
        rw [h1]
        cases h2 : (!(fl x))
        · simpa using ih
        · simp only [Bool.false_eq_true, if_false, if_true, List.length_cons]
          exact Nat.le_succ_of_le ih
      · have h1 : (!(updFn fl n true x)) = (!(fl x)) := by rw [updFn_ne _ _ hx]
        rw [h1]
        cases h2 : (!(fl x))
        · simpa using ih
        · simpa using ih

theorem unmarkedCount_update_lt (dom : List Nat) (fl : Nat → Bool) {n : Nat}
    (hn : n ∈ dom) (hfl : fl n = false) :
    unmarkedCount dom (updFn fl n true) < unmarkedCount dom fl := by
  unfold unmarkedCount
  induction dom with
  | nil => cases hn
  | cons x xs ih =>
      simp only [List.filter_cons]
      by_cases hx : x = n
      · have h1 : (!(updFn fl n true x)) = false := by rw [hx, updFn_same]; rfl
        have h2 : (!(fl x)) = true := by rw [hx, hfl]; rfl
        rw [h1, h2]
        simp only [Bool.false_eq_true, if_false, if_true, List.length_cons]
        exact Nat.lt_succ_of_le (filterLen_update_le fl n xs)
      · have hn' : n ∈ xs := by
          rcases List.mem_cons.mp hn with h | h
          · exact absurd h.symm hx
          · exact h
        have h1 : (!(updFn fl n true x)) = (!(fl x)) := by rw [updFn_ne _ _ hx]
        rw [h1]
        cases h2 : (!(fl x))
        · simpa using ih hn'
        · simpa using Nat.succ_lt_succ (ih hn')

theorem traverseList_restore (travF : (Nat → Bool) → Nat → TravResult)
    (hR : ∀ fl n fl2 vis, travF fl n = .ok fl2 vis → ∀ i, fl2 i = fl i) :
    ∀ (l : List Nat) (fl fl3 : Nat → Bool) (vis : List Nat),
      traverseList travF fl l = .ok fl3 vis → ∀ i, fl3 i = fl i := by
  intro l
  induction l with
  | nil =>
      intro fl fl3 vis h i
      simp only [traverseList] at h
      injection h with h1 h2
      rw [← h1]
  | cons t ts ih =>
      intro fl fl3 vis h i
      simp only [traverseList] at h
      split at h
      · rename_i fl2 vis1 h1
        split at h
        · rename_i fl4 vis2 h2
          injection h with h3 h4
          rw [← h3, ih fl2 fl4 vis2 h2 i, hR fl t fl2 vis1 h1 i]
        · exact TravResult.noConfusion h
        · exact TravResult.noConfusion h
      · exact TravResult.noConfusion h
      · exact TravResult.noConfusion h

theorem traverseFuel_restore (sinks : Nat → List Nat) :
    ∀ (fuel : Nat) (fl : Nat → Bool) (n : Nat) (fl2 : Nat → Bool) (vis : List Nat),
      traverseFuel sinks fuel fl n = .ok fl2 vis → ∀ i, fl2 i = fl i := by
  intro fuel
  induction fuel with
  | zero =>
      intro fl n fl2 vis h i
      exact TravResult.noConfusion h
  | succ f ih =>
      intro fl n fl2 vis h i
      simp only [traverseFuel] at h
      by_cases hfl : fl n = true
      · rw [if_pos hfl] at h
        exact TravResult.noConfusion h
      · rw [if_neg hfl] at h
        split at h
        · rename_i fl3 vis1 h1
          injection h with h2 h3
          have hfl3 : ∀ j, fl3 j = updFn fl n true j :=
            traverseList_restore (traverseFuel sinks f) (ih) (sinks n) _ _ _ h1
          rw [← h2]
          by_cases hi : i = n
          · subst hi
            rw [updFn_same]
            exact ((Bool.not_eq_true (fl i)).mp hfl).symm
          · rw [updFn_ne _ _ hi, hfl3 i, updFn_ne _ _ hi]
        · exact TravResult.noConfusion h
        · exact TravResult.noConfusion h

theorem traverseList_ok_unreached (sinks : Nat → List Nat)
    (travF : (Nat → Bool) → Nat → TravResult)
    (hR : ∀ fl n fl2 vis, travF fl n = .ok fl2 vis → ∀ i, fl2 i = fl i)
    (hN : ∀ fl t fl2 vis, travF fl t = .ok fl2 vis →
      ∀ p, fl p = true → ¬ Relation.ReflTransGen (StepF sinks) t p) :
    ∀ (l : List Nat) (fl fl3 : Nat → Bool) (vis : List Nat),
      traverseList travF fl l = .ok fl3 vis →
      ∀ p, fl p = true → ∀ t ∈ l, ¬ Relation.ReflTransGen (StepF sinks) t p := by
  intro l
  induction l with
  | nil =>
      intro fl fl3 vis h p hp t ht
      cases ht
  | cons t ts ih =>
      intro fl fl3 vis h p hp u hu
      simp only [traverseList] at h
      split at h
      · rename_i fl2 vis1 h1
        split at h
        · rename_i fl4 vis2 h2
          rcases List.mem_cons.mp hu with rfl | hu2
          · exact hN fl u fl2 vis1 h1 p hp
          · have hp2 : fl2 p = true := by rw [hR fl t fl2 vis1 h1 p]; exact hp
            exact ih fl2 fl4 vis2 h2 p hp2 u hu2
        · exact TravResult.noConfusion h
        · exact TravResult.noConfusion h
      · exact TravResult.noConfusion h
      · exact TravResult.noConfusion h

theorem traverseFuel_ok_unreached (sinks : Nat → List Nat) :
    ∀ (fuel : Nat) (fl : Nat → Bool) (n : Nat) (fl2 : Nat → Bool) (vis : List Nat),
      traverseFuel sinks fuel fl n = .ok fl2 vis →
      ∀ p, fl p = true → ¬ Relation.ReflTransGen (StepF sinks) n p := by
  intro fuel
  induction fuel with
  | zero =>
      intro fl n fl2 vis h
      exact TravResult.noConfusion h
  | succ f ih =>
      intro fl n fl2 vis h p hp hreach
      simp only [traverseFuel] at h
      by_cases hfl : fl n = true
      · rw [if_pos hfl] at h
        exact TravResult.noConfusion h
      · rw [if_neg hfl] at h
        split at h
        · rename_i fl3 vis1 h1
          rcases hreach.cases_head with rfl | ⟨c, hc, hcp⟩
          · exact hfl hp
          · have hpn : p ≠ n := fun hpn => hfl (hpn ▸ hp)
            have hp1 : updFn fl n true p = true := by rwa [updFn_ne _ _ hpn]
            exact traverseList_ok_unreached sinks (traverseFuel sinks f)
              (traverseFuel_restore sinks f) (ih) (sinks n) _ _ _ h1 p hp1 c hc hcp
        · exact TravResult.noConfusion h
        · exact TravResult.noConfusion h

theorem traverseFuel_ok_no_cycle (sinks : Nat → List Nat)
    (fuel : Nat) (fl : Nat → Bool) (n : Nat) (fl2 : Nat → Bool) (vis : List Nat)
    (h : traverseFuel sinks fuel fl n = .ok fl2 vis) :
    ¬ Relation.TransGen (StepF sinks) n n := by
  intro hcyc
  rcases Relation.TransGen.head'_iff.mp hcyc with ⟨c, hc, hcn⟩
  cases fuel with
  | zero => exact TravResult.noConfusion h
  | succ f =>
      simp only [traverseFuel] at h
      by_cases hfl : fl n = true
      · rw [if_pos hfl] at h
        exact TravResult.noConfusion h
      · rw [if_neg hfl] at h
        split at h
        · rename_i fl3 vis1 h1
          exact traverseList_ok_unreached sinks (traverseFuel sinks f)
            (traverseFuel_restore sinks f) (traverseFuel_ok_unreached sinks f)
            (sinks n) _ _ _ h1 n (updFn_same fl n true) c hc hcn
        · exact TravResult.noConfusion h
        · exact TravResult.noConfusion h

theorem traverseList_no_fuel (travF : (Nat → Bool) → Nat → TravResult)
    (dom : List Nat) (F : Nat)
    (hR : ∀ fl n fl2 vis, travF fl n = .ok fl2 vis → ∀ i, fl2 i = fl i)
    (hT : ∀ fl t, t ∈ dom → unmarkedCount dom fl < F → travF fl t ≠ .outOfFuel) :
    ∀ (l : List Nat) (fl : Nat → Bool), (∀ t ∈ l, t ∈ dom) →
      unmarkedCount dom fl < F → traverseList travF fl l ≠ .outOfFuel := by
  intro l
  induction l with
  | nil =>
      intro fl _ _ h
      exact TravResult.noConfusion h
  | cons t ts ih =>
      intro fl hdom hcnt h
      simp only [traverseList] at h
      split at h
      · rename_i fl2 vis1 h1
        split at h
        · exact TravResult.noConfusion h
        · exact TravResult.noConfusion h
        · rename_i h2
          have hcnt2 : unmarkedCount dom fl2 < F := by
            rwa [unmarkedCount_congr dom (hR fl t fl2 vis1 h1)]
          exact ih fl2 (fun u hu => hdom u (List.mem_cons_of_mem t hu)) hcnt2 h2
      · exact TravResult.noConfusion h
      · rename_i h1
        exact hT fl t (hdom t (List.mem_cons_self t ts)) hcnt h1

theorem traverseFuel_no_fuel (sinks : Nat → List Nat) (dom : List Nat)
    (hclo : ∀ i ∈ dom, ∀ j ∈ sinks i, j ∈ dom) :
    ∀ (fuel : Nat) (fl : Nat → Bool) (n : Nat), n ∈ dom →
      unmarkedCount dom fl < fuel → traverseFuel sinks fuel fl n ≠ .outOfFuel := by
  intro fuel
  induction fuel with
  | zero =>
      intro fl n _ hcnt
      exact absurd hcnt (Nat.not_lt_zero _)
  | succ f ih =>
      intro fl n hn hcnt h
      simp only [traverseFuel] at h
      by_cases hfl : fl n = true
      · rw [if_pos hfl] at h
        exact TravResult.noConfusion h
      · rw [if_neg hfl] at h
        have hcnt1 : unmarkedCount dom (updFn fl n true) < f := by
          have h1 := unmarkedCount_update_lt dom fl hn ((Bool.not_eq_true (fl n)).mp hfl)
          omega
        split at h
        · exact TravResult.noConfusion h
        · exact TravResult.noConfusion h
        · rename_i h1
          exact traverseList_no_fuel (traverseFuel sinks f) dom f
            (traverseFuel_restore sinks f) (fun fl' t ht hc => ih fl' t ht hc)
            (sinks n) (updFn fl n true) (hclo n hn) hcnt1 h1

theorem traverseList_success (sinks : Nat → List Nat)
    (travF : (Nat → Bool) → Nat → TravResult) (dom : List Nat) (F : Nat)
    (hR : ∀ fl n fl2 vis, travF fl n = .ok fl2 vis → ∀ i, fl2 i = fl i)
    (hT : ∀ fl t, t ∈ dom →
      (∀ m, Relation.ReflTransGen (StepF sinks) t m → fl m = true →
        Relation.TransGen (StepF sinks) m t) →
      (∀ m, Relation.ReflTransGen (StepF sinks) t m →
        ¬ Relation.TransGen (StepF sinks) m m) →
      unmarkedCount dom fl < F → ∃ fl2 vis, travF fl t = .ok fl2 vis) :
    ∀ (l : List Nat) (fl : Nat → Bool), (∀ t ∈ l, t ∈ dom) →
      (∀ t ∈ l, ∀ m, Relation.ReflTransGen (StepF sinks) t m → fl m = true →
        Relation.TransGen (StepF sinks) m t) →
      (∀ t ∈ l, ∀ m, Relation.ReflTransGen (StepF sinks) t m →
        ¬ Relation.TransGen (StepF sinks) m m) →
      unmarkedCount dom fl < F →
      ∃ fl3 vis, traverseList travF fl l = .ok fl3 vis := by
  intro l
  induction l with
  | nil =>
      intro fl _ _ _ _
      exact ⟨fl, [], rfl⟩
  | cons t ts ih =>
      intro fl hdom hmark hcyc hcnt
      obtain ⟨fl2, vis1, h1⟩ := hT fl t (hdom t (List.mem_cons_self t ts))
        (hmark t (List.mem_cons_self t ts)) (hcyc t (List.mem_cons_self t ts)) hcnt
      have hres := hR fl t fl2 vis1 h1
      have hcnt2 : unmarkedCount dom fl2 < F := by
        rwa [unmarkedCount_congr dom hres]
      obtain ⟨fl3, vis2, h2⟩ := ih fl2
        (fun u hu => hdom u (List.mem_cons_of_mem t hu))
        (fun u hu m hm hflm => hmark u (List.mem_cons_of_mem t hu) m hm
          (by rw [← hres m]; exact hflm))
        (fun u hu => hcyc u (List.mem_cons_of_mem t hu)) hcnt2
      refine ⟨fl3, vis1 ++ vis2, ?_⟩
      simp only [traverseList, h1, h2]

theorem traverseFuel_success (sinks : Nat → List Nat) (dom : List Nat)
    (hclo : ∀ i ∈ dom, ∀ j ∈ sinks i, j ∈ dom) :
    ∀ (fuel : Nat) (fl : Nat → Bool) (n : Nat), n ∈ dom →
      (∀ m, Relation.ReflTransGen (StepF sinks) n m → fl m = true →
        Relation.TransGen (StepF sinks) m n) →
      (∀ m, Relation.ReflTransGen (StepF sinks) n m →
        ¬ Relation.TransGen (StepF sinks) m m) →
      unmarkedCount dom fl < fuel →
      ∃ fl2 vis, traverseFuel sinks fuel fl n = .ok fl2 vis := by
  intro fuel
  induction fuel with
  | zero =>
      intro fl n _ _ _ hcnt
      exact absurd hcnt (Nat.not_lt_zero _)
  | succ f ih =>
      intro fl n hn hmark hcyc hcnt
      have hfln : fl n = false := by
        cases hfln : fl n
        · rfl
        · exact absurd (hmark n .refl hfln) (hcyc n .refl)
      have hcnt1 : unmarkedCount dom (updFn fl n true) < f := by
        have h1 := unmarkedCount_update_lt dom fl hn hfln
        omega
      obtain ⟨fl3, vis, h1⟩ := traverseList_success sinks (traverseFuel sinks f) dom f
        (traverseFuel_restore sinks f) (fun fl' t ht hm hc hcnt' => ih fl' t ht hm hc hcnt')
        (sinks n) (updFn fl n true) (hclo n hn)
        (by
          intro t ht m hm hflm
          by_cases hmn : m = n
          · subst hmn
            exact Relation.TransGen.single ht
          · rw [updFn_ne _ _ hmn] at hflm
            exact Relation.TransGen.tail (hmark m (Relation.ReflTransGen.head ht hm) hflm) ht)
        (fun t ht m hm => hcyc m (Relation.ReflTransGen.head ht hm))
        hcnt1
      refine ⟨updFn fl3 n false, n :: vis, ?_⟩
      simp only [traverseFuel]
      rw [if_neg (by rw [hfln]; exact Bool.false_ne_true), h1]

theorem addEdge_dom (s : GState) (a b : Nat) : (addEdge s a b).dom = s.dom := rfl

theorem setTraversing_dom (s : GState) (fl : Nat → Bool) :
    (setTraversing s fl).dom = s.dom := rfl

theorem setTraversing_sink (s : GState) (fl : Nat → Bool) (x : Nat) :
    ((setTraversing s fl).layers x).sink_layers = (s.layers x).sink_layers := rfl

theorem setTraversing_source (s : GState) (fl : Nat → Bool) (x : Nat) :
    ((setTraversing s fl).layers x).source_layers = (s.layers x).source_layers := rfl

theorem setTraversing_size (s : GState) (fl : Nat → Bool) (x : Nat) :
    ((setTraversing s fl).layers x).size_ = (s.layers x).size_ := rfl

theorem setTraversing_traversing (s : GState) (fl : Nat → Bool) (x : Nat) :
    ((setTraversing s fl).layers x).traversing = fl x := rfl

theorem addEdge_layers_sink (s : GState) (a b x : Nat) :
    ((addEdge s a b).layers x).sink_layers =
      if x = a then (s.layers x).sink_layers ++ [b] else (s.layers x).sink_layers := by
  unfold addEdge GState.updLayer
  simp only [updFn]
  by_cases hxb : x = b
  · subst hxb
    by_cases hxa : x = a
    · subst hxa
      simp
    · simp [hxa]
  · by_cases hxa : x = a
    · subst hxa
      simp [hxb]
    · simp [hxa, hxb]

theorem addEdge_layers_source (s : GState) (a b x : Nat) :
    ((addEdge s a b).layers x).source_layers =
      if x = b then (s.layers x).source_layers ++ [a] else (s.layers x).source_layers := by
  unfold addEdge GState.updLayer
  simp only [updFn]
  by_cases hxb : x = b
  · subst hxb
    by_cases hxa : x = a
    · subst hxa
      simp
    · simp [hxa]
  · by_cases hxa : x = a
    · subst hxa
      simp [hxb]
    · simp [hxa, hxb]

theorem addEdge_layers_traversing (s : GState) (a b x : Nat) :
    ((addEdge s a b).layers x).traversing = (s.layers x).traversing := by
  unfold addEdge GState.updLayer
  simp only [updFn]
  by_cases hxb : x = b
  · subst hxb
    by_cases hxa : x = a
    · subst hxa
      simp
    · simp [hxa]
  · by_cases hxa : x = a
    · subst hxa
      simp [hxb]
    · simp [hxa, hxb]

theorem addEdge_layers_size (s : GState) (a b x : Nat) :
    ((addEdge s a b).layers x).size_ = (s.layers x).size_ := by
  unfold addEdge GState.updLayer
  simp only [updFn]
  by_cases hxb : x = b
  · subst hxb
    by_cases hxa : x = a
    · subst hxa
      simp
    · simp [hxa]
  · by_cases hxa : x = a
    · subst hxa
      simp [hxb]
    · simp [hxa, hxb]

theorem addEdge_step_iff (s : GState) (a b i j : Nat) :
    SinkStep (addEdge s a b) i j ↔ SinkStep s i j ∨ (i = a ∧ j = b) := by
  unfold SinkStep
  rw [addEdge_layers_sink]
  by_cases hia : i = a
  · subst hia
    simp [List.mem_append]
  · simp [hia]

theorem addEdge_step_new (s : GState) (a b : Nat) : SinkStep (addEdge s a b) a b :=
  (addEdge_step_iff s a b a b).mpr (Or.inr ⟨rfl, rfl⟩)

theorem addEdge_closed (s : GState) (a b : Nat) (hclo : SinksClosed s)
    (hb : b ∈ s.dom) : SinksClosed (addEdge s a b) := by
  intro i hi j hj
  rw [addEdge_layers_sink] at hj
  by_cases hia : i = a
  · rw [if_pos hia] at hj
    rcases List.mem_append.mp hj with hj | hj
    · exact hclo i hi j hj
    · rw [List.mem_singleton] at hj
      subst hj
      exact hb
  · rw [if_neg hia] at hj
    exact hclo i hi j hj

theorem sinkStep_congr {s t : GState}
    (h : ∀ i, (s.layers i).sink_layers = (t.layers i).sink_layers) :
    SinkStep s = SinkStep t := by
  funext i j
  unfold SinkStep
  rw [h i]

theorem rtg_union_pair {r : Nat → Nat → Prop} {a b : Nat}
    (hba : ¬ Relation.ReflTransGen r b a) :
    ∀ {x y : Nat}, Relation.ReflTransGen (fun i j => r i j ∨ (i = a ∧ j = b)) x y →
      Relation.ReflTransGen r x y ∨
        (Relation.ReflTransGen r x a ∧ Relation.ReflTransGen r b y) := by
  intro x y h
  induction h using Relation.ReflTransGen.head_induction_on with
  | refl => exact Or.inl .refl
  | head hstep _ ihtail =>
      rcases hstep with hr | ⟨rfl, rfl⟩
      · rcases ihtail with ih | ⟨iha, ihb⟩
        · exact Or.inl (ih.head hr)
        · exact Or.inr ⟨iha.head hr, ihb⟩
      · rcases ihtail with ih | ⟨iha, ihb⟩
        · exact Or.inr ⟨.refl, ih⟩
        · exact absurd iha hba

theorem addEdge_acyclic (s : GState) (a b : Nat)
    (hacyc : ∀ m, ¬ Relation.TransGen (SinkStep s) m m)
    (hba : ¬ Relation.ReflTransGen (SinkStep s) b a) :
    ∀ m, ¬ Relation.TransGen (SinkStep (addEdge s a b)) m m := by
  intro m hm
  rcases Relation.TransGen.head'_iff.mp hm with ⟨c, hc, hcm⟩
  have hcm' : Relation.ReflTransGen (fun i j => SinkStep s i j ∨ (i = a ∧ j = b)) c m :=
    Relation.ReflTransGen.mono (fun i j h => (addEdge_step_iff s a b i j).mp h) hcm
  rcases rtg_union_pair hba hcm' with hr | ⟨hca, hbm⟩
  · rcases (addEdge_step_iff s a b m c).mp hc with hmc | ⟨rfl, rfl⟩
    · exact hacyc m (Relation.TransGen.head' hmc hr)
    · exact hba hr
  · rcases (addEdge_step_iff s a b m c).mp hc with hmc | ⟨rfl, rfl⟩
    · exact hba (hbm.trans (Relation.ReflTransGen.head hmc hca))
    · exact hba hca

theorem connect_ok (s : GState) (a b : Nat)
    (hclo : SinksClosed s) (ha : a ∈ s.dom) (hb : b ∈ s.dom)
    (hm : ∀ m, Relation.ReflTransGen (SinkStep (addEdge s a b)) a m →
      (s.layers m).traversing = false)
    (hnc : ∀ m, Relation.ReflTransGen (SinkStep (addEdge s a b)) a m →
      ¬ Relation.TransGen (SinkStep (addEdge s a b)) m m) :
    ∃ fl, connect s a b = .ok (setTraversing (addEdge s a b) fl) b
      ∧ ∀ i, fl i = (s.layers i).traversing := by
  have hclo1 : ∀ i ∈ (addEdge s a b).dom, ∀ j ∈ sinksOf (addEdge s a b) i,
      j ∈ (addEdge s a b).dom := addEdge_closed s a b hclo hb
  have hm' : ∀ m, Relation.ReflTransGen (StepF (sinksOf (addEdge s a b))) a m →
      GState.flags (addEdge s a b) m = true →
      Relation.TransGen (StepF (sinksOf (addEdge s a b))) m a := by
    intro m hr hfl
    have h1 : (s.layers m).traversing = false := hm m hr
    have h2 : GState.flags (addEdge s a b) m = (s.layers m).traversing :=
      addEdge_layers_traversing s a b m
    rw [h2, h1] at hfl
    exact absurd hfl Bool.false_ne_true
  obtain ⟨fl2, vis, hok⟩ := traverseFuel_success (sinksOf (addEdge s a b))
    (addEdge s a b).dom hclo1 ((addEdge s a b).dom.length + 1)
    (GState.flags (addEdge s a b)) a ha hm' (fun m hr => hnc m hr)
    (Nat.lt_succ_of_le (unmarkedCount_le _ _))
  refine ⟨fl2, ?_, ?_⟩
  · simp only [connect, assert_no_cycles, hok]
  · intro i
    have h1 := traverseFuel_restore (sinksOf (addEdge s a b)) _ _ _ _ _ hok i
    rw [h1]
    exact addEdge_layers_traversing s a b i

theorem no_cycle_of_no_sinks (s : GState)
    (h : ∀ i, (s.layers i).sink_layers = []) :
    ∀ m, ¬ Relation.TransGen (SinkStep s) m m := by
  intro m hm
  rcases Relation.TransGen.head'_iff.mp hm with ⟨c, hc, -⟩
  unfold SinkStep at hc
  rw [h m] at hc
  cases hc

theorem no_path_of_no_sinks (s : GState)
    (h : ∀ i, (s.layers i).sink_layers = []) {x y : Nat} (hxy : x ≠ y) :
    ¬ Relation.ReflTransGen (SinkStep s) x y := by
  intro hp
  rcases hp.cases_head with rfl | ⟨c, hc, -⟩
  · exact hxy rfl
  · unfold SinkStep at hc
    rw [h x] at hc
    cases hc

theorem addEdge_mutual (s : GState) (a b : Nat) (ha : a ∈ s.dom) (hb : b ∈ s.dom)
    (hmut : MutualAdj s) : MutualAdj (addEdge s a b) := by
  intro x hx y hy
  rw [addEdge_layers_sink, addEdge_layers_source]
  have hbase := hmut x hx y hy
  by_cases hxa : x = a
  · by_cases hyb : y = b
    · subst hxa
      subst hyb
      simp [List.mem_append]
    · subst hxa
      simp [List.mem_append, hyb, hbase]
  · by_cases hyb : y = b
    · subst hyb
      simp [List.mem_append, hxa, hbase]
    · simp [hxa, hyb, hbase]

theorem setTraversing_mutual (s : GState) (fl : Nat → Bool)
    (hmut : MutualAdj s) : MutualAdj (setTraversing s fl) := by
  intro x hx y hy
  rw [setTraversing_sink, setTraversing_source]
  exact hmut x hx y hy

/-- C2: for a pair with no existing sink path from b back to a, in a
well-formed state (sink edges closed over dom, all traversing flags
clear, sink graph acyclic), connect(a, b) succeeds, returns the sink b,
afterwards b is in a's sink_layers and a is in b's source_layers, and
the mutual-adjacency invariant is preserved, which is what makes chained
connection possible. -/
theorem C2_connect_success (s : GState) (a b : Nat)
    (hclo : SinksClosed s) (ha : a ∈ s.dom) (hb : b ∈ s.dom)
    (hflags : ∀ i, (s.layers i).traversing = false)
    (hacyc : ∀ m, ¬ Relation.TransGen (SinkStep s) m m)
    (hnopath : ¬ Relation.ReflTransGen (SinkStep s) b a) :
    ∃ s2, connect s a b = .ok s2 b
      ∧ b ∈ (s2.layers a).sink_layers
      ∧ a ∈ (s2.layers b).source_layers
      ∧ (MutualAdj s → MutualAdj s2) := by
  obtain ⟨fl, hconn, hfl⟩ := connect_ok s a b hclo ha hb (fun m _ => hflags m)
    (fun m _ => addEdge_acyclic s a b hacyc hnopath m)
  refine ⟨setTraversing (addEdge s a b) fl, hconn, ?_, ?_, ?_⟩
  · rw [setTraversing_sink, addEdge_layers_sink]
    simp
  · rw [setTraversing_source, addEdge_layers_source]
    simp
  · intro hmut
    exact setTraversing_mutual _ fl (addEdge_mutual s a b ha hb hmut)

/-- Concrete two-layer state with no edges and clear flags. -/
def wcon : GState :=
  { dom := [0, 1], layers := fun _ => {}, injs := fun _ => {} }

theorem wcon_no_sinks : ∀ i, (wcon.layers i).sink_layers = [] := fun _ => rfl

theorem wcon_closed : SinksClosed wcon := by
  intro i hi j hj
  rw [wcon_no_sinks] at hj
  cases hj

theorem C2_witness : (connect wcon 0 1).isOk = true := by
  obtain ⟨s2, h, -, -, -⟩ := C2_connect_success wcon 0 1 wcon_closed (by decide)
    (by decide) (fun i => rfl) (no_cycle_of_no_sinks wcon wcon_no_sinks)
    (no_path_of_no_sinks wcon wcon_no_sinks (by decide))
  rw [h]
  rfl

/-- C3: when a sink path from b back to a already exists (including the
self-loop case a = b), connect(a, b) raises the circle error, and the
cycle-causing edge stays installed: b is still in a's sink_layers and a
in b's source_layers in the state the failure leaves behind. -/
theorem C3_connect_cycle_nontransactional (s : GState) (a b : Nat)
    (hclo : SinksClosed s) (ha : a ∈ s.dom) (hb : b ∈ s.dom)
    (hpath : Relation.ReflTransGen (SinkStep s) b a) :
    ∃ s_e m, connect s a b = .err s_e (.circleAt m)
      ∧ b ∈ (s_e.layers a).sink_layers
      ∧ a ∈ (s_e.layers b).source_layers := by
  have hcyc : Relation.TransGen (SinkStep (addEdge s a b)) a a :=
    Relation.TransGen.head' (addEdge_step_new s a b)
      (Relation.ReflTransGen.mono
        (fun i j h => (addEdge_step_iff s a b i j).mpr (Or.inl h)) hpath)
  cases hres : assert_no_cycles (addEdge s a b) a with
  | ok fl vis =>
      have hok : traverseFuel (sinksOf (addEdge s a b)) ((addEdge s a b).dom.length + 1)
          (GState.flags (addEdge s a b)) a = .ok fl vis := hres
      exact absurd hcyc (traverseFuel_ok_no_cycle _ _ _ _ _ _ hok)
  | circle fl m =>
      refine ⟨setTraversing (addEdge s a b) fl, m, ?_, ?_, ?_⟩
      · simp only [connect, hres]
      · rw [setTraversing_sink, addEdge_layers_sink]
        simp
      · rw [setTraversing_source, addEdge_layers_source]
        simp
  | outOfFuel =>
      have hout : traverseFuel (sinksOf (addEdge s a b)) ((addEdge s a b).dom.length + 1)
          (GState.flags (addEdge s a b)) a = .outOfFuel := hres
      exact absurd hout (traverseFuel_no_fuel (sinksOf (addEdge s a b))
        (addEdge s a b).dom (addEdge_closed s a b hclo hb) _ _ a ha
        (Nat.lt_succ_of_le (unmarkedCount_le _ _)))

theorem C3_witness : (connect wcon 0 0).isErr = true := by
  obtain ⟨se, m, h, -, -⟩ := C3_connect_cycle_nontransactional wcon 0 0 wcon_closed
    (by decide) (by decide) Relation.ReflTransGen.refl
  rw [h]
  rfl

/-- C9: in any sink-closed finite graph state, with flags in any
condition (for instance as left behind by an earlier failed connect),
the validation traversal started at any layer of the graph terminates:
it either completes normally or raises the circle error, and never
exhausts its fuel bound. -/
theorem C9_traversal_terminates (s : GState) (a : Nat)
    (hclo : SinksClosed s) (ha : a ∈ s.dom) :
    (∃ fl vis, assert_no_cycles s a = .ok fl vis)
      ∨ (∃ fl m, assert_no_cycles s a = .circle fl m) := by
  cases hres : assert_no_cycles s a with
  | ok fl vis => exact Or.inl ⟨fl, vis, rfl⟩
  | circle fl m => exact Or.inr ⟨fl, m, rfl⟩
  | outOfFuel =>
      have hout : traverseFuel (sinksOf s) (s.dom.length + 1)
          (GState.flags s) a = .outOfFuel := hres
      exact absurd hout (traverseFuel_no_fuel (sinksOf s) s.dom hclo _ _ a ha
        (Nat.lt_succ_of_le (unmarkedCount_le _ _)))

theorem C9_witness : (∃ fl vis, assert_no_cycles wcon 0 = .ok fl vis)
    ∨ (∃ fl m, assert_no_cycles wcon 0 = .circle fl m) :=
  C9_traversal_terminates wcon 0 wcon_closed (by decide)

/-- C1 (amended): a successful connect leaves every traversing flag
exactly as it found it (so all false again when they started false); a
failing connect leaves the flags of the layers on the traversal path set
to true, and a subsequent connect on layers from whose source no
still-flagged or cycle-bearing layer is reachable still succeeds. -/
theorem C1_visiting_flags (s : GState) (a b : Nat) :
    (∀ s2 r, connect s a b = .ok s2 r →
      ∀ i, (s2.layers i).traversing = (s.layers i).traversing)
    ∧ (∀ s_e e, connect s a b = .err s_e e →
      ∀ c d, SinksClosed s_e → c ∈ s_e.dom → d ∈ s_e.dom →
      (∀ m, Relation.ReflTransGen (SinkStep (addEdge s_e c d)) c m →
        (s_e.layers m).traversing = false) →
      (∀ m, Relation.ReflTransGen (SinkStep (addEdge s_e c d)) c m →
        ¬ Relation.TransGen (SinkStep (addEdge s_e c d)) m m) →
      ∃ s2, connect s_e c d = .ok s2 d) := by
  constructor
  · intro s2 r hconn i
    simp only [connect] at hconn
    split at hconn
    · rename_i fl vis hres
      injection hconn with h1 h2
      rw [← h1, setTraversing_traversing]
      have hok : traverseFuel (sinksOf (addEdge s a b)) ((addEdge s a b).dom.length + 1)
          (GState.flags (addEdge s a b)) a = .ok fl vis := hres
      rw [traverseFuel_restore _ _ _ _ _ _ hok i]
      exact addEdge_layers_traversing s a b i
    · exact ConnectResult.noConfusion hconn
    · exact ConnectResult.noConfusion hconn
  · intro s_e e _ c d hclo hc hd hm hnc
    obtain ⟨fl, hconn2, -⟩ := connect_ok s_e c d hclo hc hd hm hnc
    exact ⟨_, hconn2⟩

theorem C1_witness : (connect wcon 0 1).flagOf 0 = false := by
  cases h : connect wcon 0 1 with
  | ok s2 r =>
      have h0 := (C1_visiting_flags wcon 0 1).1 s2 r h 0
      simp only [ConnectResult.flagOf]
      rw [h0]
      rfl
  | err s2 e =>
      have hok : (connect wcon 0 1).isOk = true := by decide
      rw [h] at hok
      simp [ConnectResult.isOk] at hok
  | outOfFuel =>
      have hok : (connect wcon 0 1).isOk = true := by decide
      rw [h] at hok
      simp [ConnectResult.isOk] at hok

/-- C1 counterexample: a failed connect (here the self-loop) does not
reset the visiting state — layer 0 is left with its traversing flag
still true, against the claim that the flags are false again on both
success and failure. -/
theorem C1_counterexample :
    (connect wcon 0 0).isErr = true ∧ (connect wcon 0 0).flagOf 0 = true := by
  decide

/-- C10: from a well-formed acyclic state with clear flags, no sink path
from b back to a, and no prior a-b adjacency, connecting a to b twice
succeeds both times (the duplicate is not rejected as a cycle), leaves b
twice in a's sink_layers and a twice in b's source_layers, and size
inference on b (no explicit size, sources [a, a] with a of explicit size
v) counts a's size once per duplicate edge, giving v + v. -/
theorem C10_duplicate_edge (s : GState) (a b v : Nat)
    (hclo : SinksClosed s) (ha : a ∈ s.dom) (hb : b ∈ s.dom)
    (hflags : ∀ i, (s.layers i).traversing = false)
    (hacyc : ∀ m, ¬ Relation.TransGen (SinkStep s) m m)
    (hab : a ≠ b)
    (hnopath : ¬ Relation.ReflTransGen (SinkStep s) b a)
    (hbs : b ∉ (s.layers a).sink_layers)
    (hsrc : (s.layers b).source_layers = [])
    (hsz : (s.layers b).size_ = none)
    (hsza : (s.layers a).size_ = some v) :
    ∃ s1 s2, connect s a b = .ok s1 b ∧ connect s1 a b = .ok s2 b
      ∧ List.count b ((s2.layers a).sink_layers) = 2
      ∧ List.count a ((s2.layers b).source_layers) = 2
      ∧ sizeFuel s2 2 b = .ok (v + v) := by
  have hacyc1 : ∀ m, ¬ Relation.TransGen (SinkStep (addEdge s a b)) m m :=
    addEdge_acyclic s a b hacyc hnopath
  obtain ⟨fl, hconn1, hfl⟩ := connect_ok s a b hclo ha hb (fun m _ => hflags m)
    (fun m _ => hacyc1 m)
  set S1 := setTraversing (addEdge s a b) fl with hS1
  have hS1sink : ∀ x, (S1.layers x).sink_layers =
      if x = a then (s.layers x).sink_layers ++ [b] else (s.layers x).sink_layers := by
    intro x
    rw [hS1, setTraversing_sink, addEdge_layers_sink]
  have hS1source : ∀ x, (S1.layers x).source_layers =
      if x = b then (s.layers x).source_layers ++ [a] else (s.layers x).source_layers := by
    intro x
    rw [hS1, setTraversing_source, addEdge_layers_source]
  have hS1step : SinkStep S1 = SinkStep (addEdge s a b) :=
    sinkStep_congr (fun i => by rw [hS1, setTraversing_sink])
  have hS1dom : S1.dom = s.dom := rfl
  have hcloS1 : SinksClosed S1 := by
    intro i hi j hj
    rw [hS1sink] at hj
    rw [hS1dom] at hi ⊢
    by_cases hia : i = a
    · rw [if_pos hia] at hj
      rcases List.mem_append.mp hj with hj | hj
      · exact hclo i hi j hj
      · rw [List.mem_singleton] at hj
        subst hj
        exact hb
    · rw [if_neg hia] at hj
      exact hclo i hi j hj
  have hacycS1 : ∀ m, ¬ Relation.TransGen (SinkStep S1) m m := by
    intro m
    rw [hS1step]
    exact hacyc1 m
  have hnopathS1 : ¬ Relation.ReflTransGen (SinkStep S1) b a := by
    rw [hS1step]
    intro hp
    exact hacyc1 a (Relation.TransGen.head' (addEdge_step_new s a b) hp)
  have hflagsS1 : ∀ i, (S1.layers i).traversing = false := by
    intro i
    rw [hS1, setTraversing_traversing, hfl i]
    exact hflags i
  obtain ⟨fl2, hconn2, hfl2⟩ := connect_ok S1 a b hcloS1 ha hb
    (fun m _ => hflagsS1 m)
    (fun m _ => addEdge_acyclic S1 a b hacycS1 hnopathS1 m)
  set S2 := setTraversing (addEdge S1 a b) fl2 with hS2
  have hS2sink : ∀ x, (S2.layers x).sink_layers =
      if x = a then (S1.layers x).sink_layers ++ [b] else (S1.layers x).sink_layers := by
    intro x
    rw [hS2, setTraversing_sink, addEdge_layers_sink]
  have hS2source : ∀ x, (S2.layers x).source_layers =
      if x = b then (S1.layers x).source_layers ++ [a] else (S1.layers x).source_layers := by
    intro x
    rw [hS2, setTraversing_source, addEdge_layers_source]
  have hS2size : ∀ x, (S2.layers x).size_ = (s.layers x).size_ := by
    intro x
    rw [hS2, setTraversing_size, addEdge_layers_size, hS1, setTraversing_size,
      addEdge_layers_size]
  refine ⟨S1, S2, hconn1, hconn2, ?_, ?_, ?_⟩
  · rw [hS2sink, if_pos rfl, hS1sink, if_pos rfl]
    rw [List.count_append, List.count_append]
    rw [List.count_eq_zero.mpr hbs]
    simp
  · rw [hS2source, if_pos rfl, hS1source, if_pos rfl, hsrc]
    simp
  · have hsources2 : (S2.layers b).source_layers = [a, a] := by
      rw [hS2source, if_pos rfl, hS1source, if_pos rfl, hsrc]
      rfl
    have hsz2 : (S2.layers b).size_ = none := by
      rw [hS2size]
      exact hsz
    have hsza2 : (S2.layers a).size_ = some v := by
      rw [hS2size]
      exact hsza
    show sizeFuel S2 (1 + 1) b = .ok (v + v)
    simp only [sizeFuel, hsz2, hsources2, hsza2, sumSizes]
    rfl

/-- Concrete state for C10: two unconnected layers, layer 0 with
explicit size 3. -/
def w10s : GState :=
  { dom := [0, 1]
  , layers := fun i => if i = 0 then { size_ := some 3 } else {}
  , injs := fun _ => {} }

theorem w10s_no_sinks : ∀ i, (w10s.layers i).sink_layers = [] := by
  intro i
  by_cases h : i = 0 <;> simp [w10s, h]

theorem w10s_flags : ∀ i, (w10s.layers i).traversing = false := by
  intro i
  by_cases h : i = 0 <;> simp [w10s, h]

theorem w10s_closed : SinksClosed w10s := by
  intro i hi j hj
  rw [w10s_no_sinks] at hj
  cases hj

/-- The result of connecting a to b twice in a row, as chained calls in
the host program would. -/
def connectTwice (s : GState) (a b : Nat) : ConnectResult :=
  match connect s a b with
  | .ok s1 _ => connect s1 a b
  | r => r

theorem C10_witness : (connectTwice w10s 0 1).isOk = true := by
  obtain ⟨s1, s2, h1, h2, -, -, -⟩ := C10_duplicate_edge w10s 0 1 3 w10s_closed
    (by decide) (by decide) w10s_flags (no_cycle_of_no_sinks w10s w10s_no_sinks)
    (by decide) (no_path_of_no_sinks w10s w10s_no_sinks (by decide))
    (by decide) (by decide) (by decide) (by decide)
  simp [connectTwice, h1, h2, ConnectResult.isOk]

/-- One undirected adjacency step: a sink or source edge followed in
either direction. -/
def UStep (s : GState) (i j : Nat) : Prop :=
  j ∈ (s.layers i).sink_layers ∨ j ∈ (s.layers i).source_layers

/-- One frontier expansion of collect_connected_layers: all sink and
source neighbours of the newly discovered layers. -/
def frontier (s : GState) (newL : Finset Nat) : Finset Nat :=
  newL.biUnion (fun i =>
    (s.layers i).sink_layers.toFinset ∪ (s.layers i).source_layers.toFinset)

/-- The while loop of collect_connected_layers: absorb the new layers
into the connectom and keep expanding with the not-yet-seen neighbours
until no new layers are discovered. -/
def collectFuel (s : GState) : Nat → Finset Nat → Finset Nat → Finset Nat
  | 0, connectom, _ => connectom
  | fuel + 1, connectom, newL =>
    if newL = ∅ then connectom
    else collectFuel s fuel (connectom ∪ newL)
      (frontier s newL \ (connectom ∪ newL))

/-- ConstructionLayer.collect_connected_layers: breadth-first expansion
starting from the singleton frontier of this layer, with fuel that is
always adequate for an edge-closed state. -/
def collect_connected_layers (s : GState) (i : Nat) : Finset Nat :=
  collectFuel s (s.dom.length + 1) ∅ {i}

theorem mem_frontier (s : GState) (newL : Finset Nat) (y : Nat) :
    y ∈ frontier s newL ↔ ∃ x ∈ newL, UStep s x y := by
  unfold frontier UStep
  simp [List.mem_toFinset]

theorem collectFuel_sound (s : GState) :
    ∀ (fuel : Nat) (conn newL : Finset Nat) (x : Nat),
      x ∈ collectFuel s fuel conn newL →
      x ∈ conn ∨ ∃ t ∈ newL, Relation.ReflTransGen (UStep s) t x := by
  intro fuel
  induction fuel with
  | zero =>
      intro conn newL x hx
      exact Or.inl hx
  | succ f ih =>
      intro conn newL x hx
      simp only [collectFuel] at hx
      by_cases hemp : newL = ∅
      · rw [if_pos hemp] at hx
        exact Or.inl hx
      · rw [if_neg hemp] at hx
        rcases ih _ _ x hx with hconn | ⟨t, ht, hreach⟩
        · rcases Finset.mem_union.mp hconn with h | h
          · exact Or.inl h
          · exact Or.inr ⟨x, h, .refl⟩
        · have ht2 : t ∈ frontier s newL := (Finset.mem_sdiff.mp ht).1
          rcases (mem_frontier s newL t).mp ht2 with ⟨u, hu, hstep⟩
          exact Or.inr ⟨u, hu, hreach.head hstep⟩

theorem collectFuel_spec (s : GState) (domF : Finset Nat)
    (hedge : ∀ x ∈ domF, ∀ y, UStep s x y → y ∈ domF) :
    ∀ (fuel : Nat) (conn newL : Finset Nat),
      conn ∪ newL ⊆ domF → Disjoint conn newL →
      domF.card - conn.card < fuel →
      (∀ x ∈ conn, ∀ y, UStep s x y → y ∈ conn ∪ newL) →
      (conn ∪ newL ⊆ collectFuel s fuel conn newL)
      ∧ (∀ x ∈ collectFuel s fuel conn newL, ∀ y, UStep s x y →
          y ∈ collectFuel s fuel conn newL) := by
  intro fuel
  induction fuel with
  | zero =>
      intro conn newL _ _ hfuel _
      exact absurd hfuel (Nat.not_lt_zero _)
  | succ f ih =>
      intro conn newL hsub hdisj hfuel hclosed
      simp only [collectFuel]
      by_cases hemp : newL = ∅
      · rw [if_pos hemp]
        subst hemp
        constructor
        · simp
        · intro x hx y hy
          have := hclosed x hx y hy
          simpa using this
      · rw [if_neg hemp]
        have hnewdom : newL ⊆ domF := (Finset.union_subset_iff.mp hsub).2
        have hsub' : (conn ∪ newL) ∪ (frontier s newL \ (conn ∪ newL)) ⊆ domF := by
          apply Finset.union_subset hsub
          intro t ht
          have ht2 : t ∈ frontier s newL := (Finset.mem_sdiff.mp ht).1
          rcases (mem_frontier s newL t).mp ht2 with ⟨u, hu, hstep⟩
          exact hedge u (hnewdom hu) t hstep
        have hdisj' : Disjoint (conn ∪ newL) (frontier s newL \ (conn ∪ newL)) :=
          Finset.disjoint_sdiff
        have hcard : domF.card - (conn ∪ newL).card < f := by
          have h1 : (conn ∪ newL).card = conn.card + newL.card :=
            Finset.card_union_of_disjoint hdisj
          have h2 : 0 < newL.card :=
            Finset.card_pos.mpr (Finset.nonempty_iff_ne_empty.mpr hemp)
          have h3 : (conn ∪ newL).card ≤ domF.card :=
            Finset.card_le_card (Finset.union_subset_iff.mp hsub').1
          omega
        have hclosed' : ∀ x ∈ conn ∪ newL, ∀ y, UStep s x y →
            y ∈ (conn ∪ newL) ∪ (frontier s newL \ (conn ∪ newL)) := by
          intro x hx y hy
          rcases Finset.mem_union.mp hx with hx | hx
          · exact Finset.mem_union_left _ (hclosed x hx y hy)
          · by_cases hyc : y ∈ conn ∪ newL
            · exact Finset.mem_union_left _ hyc
            · refine Finset.mem_union_right _ (Finset.mem_sdiff.mpr ⟨?_, hyc⟩)
              exact (mem_frontier s newL y).mpr ⟨x, hx, hy⟩
        obtain ⟨hsubr, hclosedr⟩ := ih (conn ∪ newL)
          (frontier s newL \ (conn ∪ newL)) hsub' hdisj' hcard hclosed'
        constructor
        · exact (Finset.subset_union_left).trans hsubr
        · exact hclosedr

theorem ustep_mem_dom (s : GState) (hclo : EdgesClosed s) {x y : Nat}
    (hx : x ∈ s.dom) (h : UStep s x y) : y ∈ s.dom := by
  rcases h with h | h
  · exact (hclo x hx).1 y h
  · exact (hclo x hx).2 y h

theorem ureach_mem_dom (s : GState) (hclo : EdgesClosed s) {x y : Nat}
    (hx : x ∈ s.dom) (h : Relation.ReflTransGen (UStep s) x y) : y ∈ s.dom := by
  induction h with
  | refl => exact hx
  | tail _ h2 ih => exact ustep_mem_dom s hclo ih h2

theorem ustep_symm (s : GState) (hmut : MutualAdj s) {x y : Nat}
    (hx : x ∈ s.dom) (hy : y ∈ s.dom) (h : UStep s x y) : UStep s y x := by
  rcases h with h | h
  · exact Or.inr ((hmut x hx y hy).mp h)
  · exact Or.inl ((hmut y hy x hx).mpr h)

theorem ureach_symm (s : GState) (hclo : EdgesClosed s) (hmut : MutualAdj s)
    {x y : Nat} (hx : x ∈ s.dom)
    (h : Relation.ReflTransGen (UStep s) x y) :
    Relation.ReflTransGen (UStep s) y x := by
  induction h with
  | refl => exact .refl
  | tail h1 h2 ih =>
      have hb := ureach_mem_dom s hclo hx h1
      have hc := ustep_mem_dom s hclo hb h2
      exact ih.head (ustep_symm s hmut hb hc h2)

theorem collect_spec (s : GState) (i : Nat) (hclo : EdgesClosed s)
    (hi : i ∈ s.dom) :
    ∀ j, j ∈ collect_connected_layers s i ↔
      Relation.ReflTransGen (UStep s) i j := by
  have hedge : ∀ x ∈ s.dom.toFinset, ∀ y, UStep s x y → y ∈ s.dom.toFinset := by
    intro x hx y hstep
    rw [List.mem_toFinset] at hx ⊢
    exact ustep_mem_dom s hclo hx hstep
  obtain ⟨hsub, hclosed⟩ := collectFuel_spec s s.dom.toFinset hedge
    (s.dom.length + 1) ∅ {i}
    (by
      intro x hx
      rw [Finset.empty_union, Finset.mem_singleton] at hx
      subst hx
      rwa [List.mem_toFinset])
    (Finset.disjoint_empty_left _)
    (by
      have h1 := List.toFinset_card_le s.dom
      simp only [Finset.card_empty]
      omega)
    (by
      intro x hx
      cases Finset.not_mem_empty x hx)
  intro j
  constructor
  · intro hj
    rcases collectFuel_sound s _ _ _ j hj with hconn | ⟨t, ht, hreach⟩
    · cases Finset.not_mem_empty j hconn
    · rw [Finset.mem_singleton] at ht
      subst ht
      exact hreach
  · intro hreach
    induction hreach with
    | refl =>
        apply hsub
        rw [Finset.empty_union, Finset.mem_singleton]
    | tail _ h2 ih => exact hclosed _ ih _ h2

/-- C8: collect_connected_layers returns exactly the layers reachable
from the start layer by sink or source edges in either direction, always
including the layer itself, and under the mutual-adjacency invariant any
two layers of the same connected subgraph obtain the same set. -/
theorem C8_connected_component (s : GState) (i : Nat)
    (hclo : EdgesClosed s) (hi : i ∈ s.dom) :
    (∀ j, j ∈ collect_connected_layers s i ↔
      Relation.ReflTransGen (UStep s) i j)
    ∧ i ∈ collect_connected_layers s i
    ∧ (MutualAdj s → ∀ m n, m ∈ s.dom →
        Relation.ReflTransGen (UStep s) m n →
        collect_connected_layers s m = collect_connected_layers s n) := by
  refine ⟨collect_spec s i hclo hi, (collect_spec s i hclo hi i).mpr .refl, ?_⟩
  intro hmut m n hm hreach
  have hn : n ∈ s.dom := ureach_mem_dom s hclo hm hreach
  have hsymm : Relation.ReflTransGen (UStep s) n m :=
    ureach_symm s hclo hmut hm hreach
  ext j
  rw [collect_spec s m hclo hm j, collect_spec s n hclo hn j]
  constructor
  · intro h
    exact hsymm.trans h
  · intro h
    exact hreach.trans h

/-- Concrete state for C8: layer 0 feeding layer 1 with mutual adjacency
recorded on both sides. -/
def w8s : GState :=
  { dom := [0, 1]
  , layers := fun i =>
      if i = 0 then { sink_layers := [1] }
      else if i = 1 then { source_layers := [0] }
      else {}
  , injs := fun _ => {} }

theorem w8s_closed : EdgesClosed w8s := by
  intro i hi
  have hi2 : i = 0 ∨ i = 1 := by simpa [w8s] using hi
  constructor <;> intro j hj
  · rcases hi2 with rfl | rfl
    · simp [w8s] at hj
      simp [w8s, hj]
    · simp [w8s] at hj
  · rcases hi2 with rfl | rfl
    · simp [w8s] at hj
    · simp [w8s] at hj
      simp [w8s, hj]

theorem C8_witness : 1 ∈ collect_connected_layers w8s 0 ↔
    Relation.ReflTransGen (UStep w8s) 0 1 :=
  (C8_connected_component w8s 0 w8s_closed (by decide)).1 1

end Brainstorm
